import Mathlib

/-!
Verification of the trie implementation in `src/main.rs`.

Strings are modelled as `List Char` (the sequence produced by Rust's
`str::chars`).  Rust's `str::to_lowercase` is modelled by its ASCII case
mapping (`'A'..'Z'` map to `'a'..'z'`, everything else is unchanged); the
data structure only distinguishes ASCII letters, so this is the relevant
fragment.  Fallible operations of the source (array indexing, `usize`
subtraction underflow) are modelled with `Option`: a `none` result marks a
panic of the Rust program.
-/

set_option maxHeartbeats 1000000

/-- ASCII case lowering of a single character, modelling `char::to_lowercase`
on the ASCII fragment. -/
def lowerChar (c : Char) : Char :=
  if 'A' ≤ c ∧ c ≤ 'Z' then Char.ofNat (c.toNat + 32) else c

/-- ASCII case raising of a single character, modelling `char::to_uppercase`
on the ASCII fragment. -/
def upperChar (c : Char) : Char :=
  if 'a' ≤ c ∧ c ≤ 'z' then Char.ofNat (c.toNat - 32) else c

/-- Modelling `str::to_lowercase` (ASCII fragment): lower every character. -/
def toLowercase (s : List Char) : List Char := s.map lowerChar

/-- Modelling `str::to_uppercase` (ASCII fragment): raise every character. -/
def toUppercase (s : List Char) : List Char := s.map upperChar

/-- Modelling `char::is_ascii_alphabetic`. -/
def isAsciiAlphabetic (c : Char) : Bool :=
  ('A' ≤ c && c ≤ 'Z') || ('a' ≤ c && c ≤ 'z')

/-- A node of the trie: 26 optional children (the fixed-size array
`[Option<Box<TrieNode>>; 26]`, modelled as a list that is kept at length 26
by the well-formedness predicate `WFb`) and the end-of-word flag. -/
inductive TrieNode : Type where
  | mk (children : List (Option TrieNode)) (is_end_of_word : Bool)

/-- The children array of a node. -/
def TrieNode.children : TrieNode → List (Option TrieNode)
  | .mk cs _ => cs

/-- The `is_end_of_word` flag of a node. -/
def TrieNode.is_end_of_word : TrieNode → Bool
  | .mk _ e => e

/-- Models `TrieNode::new()`: 26 empty slots, flag false. -/
def TrieNode.new : TrieNode := .mk (List.replicate 26 none) false

/-- Modelling `(char as usize) - ('a' as usize)`: `usize` subtraction panics
on underflow (in a debug build), hence the `Option`. -/
def charIndex? (c : Char) : Option Nat :=
  if 'a' ≤ c then some (c.toNat - 'a'.toNat) else none

/-- The loop body of `Trie::insert`, iterating over the already-lowercased
characters.  `none` models a panic (index underflow or out of bounds). -/
def insertGo : TrieNode → List Char → Option TrieNode
  | node, [] => some (.mk node.children true)
  | node, c :: rest =>
    if isAsciiAlphabetic c then
      match charIndex? c with
      | none => none
      | some i =>
        match node.children[i]? with
        | none => none
        | some slot =>
          match insertGo (slot.getD TrieNode.new) rest with
          | none => none
          | some child => some (.mk (node.children.set i (some child)) node.is_end_of_word)
    else
      insertGo node rest

/-- The loop of `Trie::contains`, iterating over the already-lowercased
characters.  `none` models a panic. -/
def containsGo : TrieNode → List Char → Option Bool
  | node, [] => some node.is_end_of_word
  | node, c :: rest =>
    if isAsciiAlphabetic c then
      match charIndex? c with
      | none => none
      | some i =>
        match node.children[i]? with
        | none => none
        | some (some child) => containsGo child rest
        | some none => some false
    else
      some false

/-- The descent loop of `Trie::words` over the lowercased characters of the
given string.  Outer `none` models a panic; `some none` models the
early return of the empty vector when a child slot is absent. -/
def descend : TrieNode → List Char → Option (Option TrieNode)
  | node, [] => some (some node)
  | node, c :: rest =>
    if isAsciiAlphabetic c then
      match charIndex? c with
      | none => none
      | some i =>
        match node.children[i]? with
        | none => none
        | some (some child) => descend child rest
        | some none => some none
    else
      descend node rest

/-- The character `(b'a' + i as u8) as char` emitted for child slot `i`. -/
def letterChar (i : Nat) : Char := Char.ofNat ('a'.toNat + i)

mutual
/-- Models `Trie::collect_words`: emit the accumulated string at each end-of-word
node, then recurse into the present children in ascending letter order. -/
def collect_words : TrieNode → List Char → List (List Char)
  | .mk cs e, pre =>
    (if e then [pre] else []) ++ collectFrom cs 0 pre

/-- The `for (i, child_opt) in node.children.iter().enumerate()` loop of
`collect_words`, with `i` the index of the head of the remaining list. -/
def collectFrom : List (Option TrieNode) → Nat → List Char → List (List Char)
  | [], _, _ => []
  | none :: rest, i, pre => collectFrom rest (i + 1) pre
  | some child :: rest, i, pre =>
      collect_words child (pre ++ [letterChar i]) ++ collectFrom rest (i + 1) pre
end

/-- The trie: a root node. -/
structure Trie where
  root : TrieNode

/-- Models `Trie::new()`. -/
def Trie.new : Trie := ⟨TrieNode.new⟩

/-- Models `Trie::insert`: lowercase the word, then run the insertion loop.
`none` models a panic. -/
def Trie.insert (t : Trie) (w : List Char) : Option Trie :=
  (insertGo t.root (toLowercase w)).map Trie.mk

/-- Models `Trie::contains`: lowercase the word, then run the lookup loop. -/
def Trie.contains (t : Trie) (w : List Char) : Option Bool :=
  containsGo t.root (toLowercase w)

/-- Models `Trie::words`: lowercase the given string to drive the descent, then
collect all words below the reached node.  Note the source passes the
ORIGINAL string, not the lowercased one, as the accumulated prefix. -/
def Trie.words (t : Trie) (pre : List Char) : Option (List (List Char)) :=
  match descend t.root (toLowercase pre) with
  | none => none
  | some none => some []
  | some (some node) => some (collect_words node pre)

mutual
/-- Well-formedness: every node's children list has length 26 (the source's
fixed-size array). -/
def WFb : TrieNode → Bool
  | .mk cs _ => (cs.length == 26) && childrenWF cs

/-- Well-formedness of a children list. -/
def childrenWF : List (Option TrieNode) → Bool
  | [] => true
  | none :: rest => childrenWF rest
  | some t :: rest => WFb t && childrenWF rest
end

mutual
/-- The number of nodes of a trie rooted at the given node. -/
def TrieNode.size : TrieNode → Nat
  | .mk cs _ => 1 + childrenSize cs

/-- Total node count of a children list. -/
def childrenSize : List (Option TrieNode) → Nat
  | [] => 0
  | none :: rest => childrenSize rest
  | some t :: rest => TrieNode.size t + childrenSize rest
end

/-- The child of a node at a given index, `none` when the slot is absent or
the index is out of range. -/
def TrieNode.childAt (t : TrieNode) (i : Nat) : Option TrieNode :=
  (t.children[i]?).join

/-- Specification-side membership: follow the letter path (for lowercase
letter strings) and read the flag. -/
def memB : TrieNode → List Char → Bool
  | t, [] => t.is_end_of_word
  | t, c :: rest =>
    match t.childAt (c.toNat - 97) with
    | some child => memB child rest
    | none => false

/-- Build a trie by inserting the given words, in order, into a fresh trie. -/
def buildTrie (ws : List (List Char)) : Option Trie :=
  ws.foldl (fun acc w => acc.bind fun t => t.insert w) (some Trie.new)

/-- The normalized key stored by `insert w`: the letter-only projection of
the lowercased word. -/
def normKey (w : List Char) : List Char := (toLowercase w).filter isAsciiAlphabetic

/-! Character-level lemmas. -/

/-- Character order is code-point order, definitionally. -/
theorem char_le_iff (a b : Char) : a ≤ b ↔ a.toNat ≤ b.toNat := Iff.rfl

/-- Characters are determined by their code points. -/
theorem char_eq_of_toNat_eq {a b : Char} (h : a.toNat = b.toNat) : a = b := by
  have ha := Char.ofNat_toNat a
  have hb := Char.ofNat_toNat b
  rw [← ha, ← hb, h]

/-- On plane-0 code points below the surrogate range, `Char.ofNat` is a
section of `Char.toNat`. -/
theorem toNat_ofNat_of_lt {n : Nat} (h : n < 55296) : (Char.ofNat n).toNat = n := by
  unfold Char.ofNat
  split
  · rfl
  · next hv => exact absurd (Or.inl h) hv

/-- Code-point characterization of the alphabetic guard. -/
theorem isAsciiAlphabetic_iff (c : Char) :
    isAsciiAlphabetic c = true ↔
      (65 ≤ c.toNat ∧ c.toNat ≤ 90) ∨ (97 ≤ c.toNat ∧ c.toNat ≤ 122) := by
  simp only [isAsciiAlphabetic, Bool.or_eq_true, Bool.and_eq_true, decide_eq_true_eq,
    char_le_iff]
  exact Iff.rfl

/-- Code-point action of `lowerChar`. -/
theorem lowerChar_toNat (c : Char) :
    (lowerChar c).toNat =
      if 65 ≤ c.toNat ∧ c.toNat ≤ 90 then c.toNat + 32 else c.toNat := by
  unfold lowerChar
  by_cases h : 65 ≤ c.toNat ∧ c.toNat ≤ 90
  · rw [if_pos h, if_pos]
    · exact toNat_ofNat_of_lt (by omega)
    · exact ⟨h.1, h.2⟩
  · rw [if_neg h, if_neg]
    exact fun hc => h ⟨hc.1, hc.2⟩

/-- Code-point action of `upperChar`. -/
theorem upperChar_toNat (c : Char) :
    (upperChar c).toNat =
      if 97 ≤ c.toNat ∧ c.toNat ≤ 122 then c.toNat - 32 else c.toNat := by
  unfold upperChar
  by_cases h : 97 ≤ c.toNat ∧ c.toNat ≤ 122
  · rw [if_pos h, if_pos]
    · exact toNat_ofNat_of_lt (by omega)
    · exact ⟨h.1, h.2⟩
  · rw [if_neg h, if_neg]
    exact fun hc => h ⟨hc.1, hc.2⟩

/-- A string is `LoweredOK` when every character of it that passes the
alphabetic guard is a lowercase letter.  This is the key property of the
output of `to_lowercase` that keeps the index computation in bounds. -/
def LoweredOK (s : List Char) : Prop :=
  ∀ c ∈ s, isAsciiAlphabetic c = true → 97 ≤ c.toNat ∧ c.toNat ≤ 122

/-- Lowercased strings are `LoweredOK`. -/
theorem loweredOK_toLowercase (w : List Char) : LoweredOK (toLowercase w) := by
  intro c hc halpha
  simp only [toLowercase, List.mem_map] at hc
  obtain ⟨d, _, rfl⟩ := hc
  have h := lowerChar_toNat d
  rw [isAsciiAlphabetic_iff] at halpha
  split at h <;> omega

theorem loweredOK_cons {c : Char} {s : List Char} (h : LoweredOK (c :: s)) :
    LoweredOK s :=
  fun d hd => h d (List.mem_cons_of_mem c hd)

theorem loweredOK_head {c : Char} {s : List Char} (h : LoweredOK (c :: s))
    (ha : isAsciiAlphabetic c = true) : 97 ≤ c.toNat ∧ c.toNat ≤ 122 :=
  h c (List.mem_cons_self c s) ha

/-- The index computation succeeds on lowercase letters. -/
theorem charIndex?_of_lower {c : Char} (h1 : 97 ≤ c.toNat) :
    charIndex? c = some (c.toNat - 97) := by
  unfold charIndex?
  rw [show 'a'.toNat = 97 from rfl, if_pos (show 'a' ≤ c from h1)]

/-- Code point of the emitted letter for a child slot. -/
theorem letterChar_toNat {i : Nat} (h : i < 26) : (letterChar i).toNat = 97 + i := by
  unfold letterChar
  rw [show 'a'.toNat = 97 from rfl]
  exact toNat_ofNat_of_lt (by omega)

/-- Emitted letters are lowercase letters. -/
theorem letterChar_lower {i : Nat} (h : i < 26) :
    97 ≤ (letterChar i).toNat ∧ (letterChar i).toNat ≤ 122 := by
  rw [letterChar_toNat h]; omega

/-- Emitted letters pass the alphabetic guard. -/
theorem letterChar_alpha {i : Nat} (h : i < 26) :
    isAsciiAlphabetic (letterChar i) = true := by
  rw [isAsciiAlphabetic_iff, letterChar_toNat h]; omega

/-- The emitted letter of the index of a lowercase letter is that letter. -/
theorem letterChar_index {c : Char} (h1 : 97 ≤ c.toNat) (h2 : c.toNat ≤ 122) :
    letterChar (c.toNat - 97) = c := by
  apply char_eq_of_toNat_eq
  rw [letterChar_toNat (by omega)]
  omega

/-- Indices of emitted letters. -/
theorem letterChar_sub {i : Nat} (h : i < 26) : (letterChar i).toNat - 97 = i := by
  rw [letterChar_toNat h]; omega

/-! Well-formedness lemmas. -/

/-- Membership characterization of children well-formedness. -/
theorem childrenWF_iff (cs : List (Option TrieNode)) :
    childrenWF cs = true ↔ ∀ slot ∈ cs, ∀ t, slot = some t → WFb t = true := by
  induction cs with
  | nil => simp [childrenWF]
  | cons hd rest ih =>
    cases hd with
    | none =>
      rw [childrenWF, ih]
      constructor
      · intro h slot hslot t ht
        rcases List.mem_cons.1 hslot with rfl | hm
        · exact absurd ht (by simp)
        · exact h slot hm t ht
      · intro h slot hslot t ht
        exact h slot (List.mem_cons_of_mem _ hslot) t ht
    | some u =>
      rw [childrenWF, Bool.and_eq_true, ih]
      constructor
      · intro h slot hslot t ht
        rcases List.mem_cons.1 hslot with rfl | hm
        · cases ht; exact h.1
        · exact h.2 slot hm t ht
      · intro h
        exact ⟨h (some u) (List.mem_cons_self _ _) u rfl,
          fun slot hslot t ht => h slot (List.mem_cons_of_mem _ hslot) t ht⟩

/-- Unfolding of node well-formedness. -/
theorem WFb_mk_iff (cs : List (Option TrieNode)) (e : Bool) :
    WFb (.mk cs e) = true ↔ cs.length = 26 ∧ childrenWF cs = true := by
  rw [WFb, Bool.and_eq_true, beq_iff_eq]

/-- The fresh node is well-formed. -/
theorem WFb_new : WFb TrieNode.new = true := by decide

/-- Updating a slot with a well-formed node preserves children
well-formedness. -/
theorem childrenWF_set {cs : List (Option TrieNode)} (h : childrenWF cs = true)
    {t : TrieNode} (ht : WFb t = true) (i : Nat) :
    childrenWF (cs.set i (some t)) = true := by
  rw [childrenWF_iff] at h ⊢
  intro slot hslot u hu
  rcases List.mem_or_eq_of_mem_set hslot with h1 | h2
  · exact h slot h1 u hu
  · cases h2; cases hu; exact ht

/-- Slots of a well-formed children list hold well-formed nodes. -/
theorem childrenWF_slot {cs : List (Option TrieNode)} (h : childrenWF cs = true)
    {i : Nat} {t : TrieNode} (hi : cs[i]? = some (some t)) : WFb t = true :=
  (childrenWF_iff cs).1 h (some t) (List.getElem?_mem hi) t rfl

/-- The default taken when a slot is absent is well-formed. -/
theorem WFb_getD {slot : Option TrieNode} {cs : List (Option TrieNode)}
    (h : childrenWF cs = true) {i : Nat} (hi : cs[i]? = some slot) :
    WFb (slot.getD TrieNode.new) = true := by
  cases slot with
  | none => exact WFb_new
  | some t => exact childrenWF_slot h hi

/-! Membership lemmas. -/

/-- Unfolding of a child access. -/
theorem childAt_mk (cs : List (Option TrieNode)) (e : Bool) (i : Nat) :
    TrieNode.childAt (.mk cs e) i = (cs[i]?).join := rfl

/-- The fresh node stores nothing. -/
theorem memB_new (s : List Char) : memB TrieNode.new s = false := by
  cases s with
  | nil => rfl
  | cons c rest =>
    have h : TrieNode.new.childAt (c.toNat - 97) = none := by
      rw [show TrieNode.new.childAt (c.toNat - 97)
            = ((List.replicate 26 (none : Option TrieNode))[c.toNat - 97]?).join from rfl,
          List.getElem?_replicate]
      split <;> rfl
    simp only [memB, h]


/-- Unfolding of membership at the empty string. -/
theorem memB_nil (t : TrieNode) : memB t [] = t.is_end_of_word := by
  cases t; rfl

/-- Membership steps through a present child. -/
theorem memB_cons_some {t u : TrieNode} {c : Char} (rest : List Char)
    (h : t.childAt (c.toNat - 97) = some u) : memB t (c :: rest) = memB u rest := by
  simp only [memB, h]

/-- Membership fails at an absent child. -/
theorem memB_cons_none {t : TrieNode} {c : Char} (rest : List Char)
    (h : t.childAt (c.toNat - 97) = none) : memB t (c :: rest) = false := by
  simp only [memB, h]

/-- The flag does not influence child access. -/
theorem childAt_flag (cs : List (Option TrieNode)) (e e' : Bool) (i : Nat) :
    TrieNode.childAt (.mk cs e) i = TrieNode.childAt (.mk cs e') i := rfl

/-- Child access from a slot lookup. -/
theorem childAt_of_getElem {cs : List (Option TrieNode)} {e : Bool} {i : Nat}
    {slot : Option TrieNode} (h : cs[i]? = some slot) :
    TrieNode.childAt (.mk cs e) i = slot := by
  rw [childAt_mk, h]; rfl

/-- Child access after an update at the same index. -/
theorem childAt_set_self {cs : List (Option TrieNode)} (e : Bool) {i : Nat}
    (h : i < cs.length) (u : TrieNode) :
    TrieNode.childAt (.mk (cs.set i (some u)) e) i = some u := by
  rw [childAt_mk, List.getElem?_set_self h]; rfl

/-- Child access after an update at another index. -/
theorem childAt_set_ne {cs : List (Option TrieNode)} (e : Bool) {i j : Nat}
    (h : i ≠ j) (u : TrieNode) :
    TrieNode.childAt (.mk (cs.set i (some u)) e) j = TrieNode.childAt (.mk cs e) j := by
  rw [childAt_mk, List.getElem?_set_ne h, childAt_mk]

/-! The insert loop: totality, well-formedness, and its effect on membership. -/

/-- A string consisting of lowercase ASCII letters only. -/
def Letters (s : List Char) : Prop := ∀ c ∈ s, 97 ≤ c.toNat ∧ c.toNat ≤ 122

theorem letters_cons {c : Char} {s : List Char} (h : Letters (c :: s)) : Letters s :=
  fun d hd => h d (List.mem_cons_of_mem c hd)

theorem letters_alpha {c : Char} (h1 : 97 ≤ c.toNat) (h2 : c.toNat ≤ 122) :
    isAsciiAlphabetic c = true := by
  rw [isAsciiAlphabetic_iff]; omega

/-- Effect of one `insert` loop run on an already-lowercased string: it
never panics, preserves well-formedness, sets the flag of the root exactly
when the string has no letters, and adds exactly the letter-only projection
of the string to the stored set. -/
theorem insertGo_spec (s : List Char) : ∀ t : TrieNode, WFb t = true → LoweredOK s →
    ∃ t', insertGo t s = some t' ∧ WFb t' = true ∧
      t'.is_end_of_word = (t.is_end_of_word || (s.filter isAsciiAlphabetic).isEmpty) ∧
      ∀ s', Letters s' →
        memB t' s' = (decide (s' = s.filter isAsciiAlphabetic) || memB t s') := by
  induction s with
  | nil =>
    rintro ⟨cs, e⟩ hwf _
    refine ⟨.mk cs true, rfl, ?_, by simp [TrieNode.is_end_of_word], ?_⟩
    · rw [WFb_mk_iff] at hwf ⊢; exact hwf
    · intro s' _
      cases s' with
      | nil => simp [memB_nil, TrieNode.is_end_of_word]
      | cons d s'' =>
        cases hq : TrieNode.childAt (.mk cs e) (d.toNat - 97) with
        | none =>
          rw [memB_cons_none s'' ((childAt_flag cs true e _).trans hq),
            memB_cons_none s'' hq]
          simp
        | some u =>
          rw [memB_cons_some s'' ((childAt_flag cs true e _).trans hq),
            memB_cons_some s'' hq]
          simp
  | cons c rest ih =>
    rintro ⟨cs, e⟩ hwf hlo
    by_cases hc : isAsciiAlphabetic c = true
    · have hcl := loweredOK_head hlo hc
      have hlen : cs.length = 26 := ((WFb_mk_iff cs e).1 hwf).1
      have hcwf : childrenWF cs = true := ((WFb_mk_iff cs e).1 hwf).2
      have hilt : c.toNat - 97 < cs.length := by omega
      have hidx : charIndex? c = some (c.toNat - 97) := charIndex?_of_lower hcl.1
      obtain ⟨slot, hget⟩ : ∃ slot, cs[c.toNat - 97]? = some slot := by
        cases hq : cs[c.toNat - 97]? with
        | some slot => exact ⟨slot, rfl⟩
        | none =>
          rw [List.getElem?_eq_none_iff] at hq
          omega
      obtain ⟨child', hins, hwf', hflag', hmem'⟩ :=
        ih (slot.getD TrieNode.new) (WFb_getD hcwf hget) (loweredOK_cons hlo)
      have hfilter : (c :: rest).filter isAsciiAlphabetic
          = c :: rest.filter isAsciiAlphabetic := List.filter_cons_of_pos hc
      refine ⟨.mk (cs.set (c.toNat - 97) (some child')) e, ?_, ?_, ?_, ?_⟩
      · simp only [insertGo, hc, if_true, hidx, TrieNode.children,
          show 'a'.toNat = 97 from rfl, hget, hins, TrieNode.is_end_of_word]
      · rw [WFb_mk_iff]
        exact ⟨by rw [List.length_set]; exact hlen, childrenWF_set hcwf hwf' _⟩
      · rw [hfilter]
        simp [TrieNode.is_end_of_word]
      · intro s' hs'
        cases s' with
        | nil =>
          rw [hfilter]
          simp [memB_nil, TrieNode.is_end_of_word]
        | cons d s'' =>
          have hd := hs' d (List.mem_cons_self _ _)
          have hs'' : Letters s'' := letters_cons hs'
          rw [hfilter]
          by_cases hji : d.toNat - 97 = c.toNat - 97
          · have hdc : d = c := char_eq_of_toNat_eq (by omega)
            subst hdc
            rw [memB_cons_some s'' (hji ▸ childAt_set_self e hilt child'),
              hmem' s'' hs'']
            have hdec : (decide (d :: s'' = d :: rest.filter isAsciiAlphabetic))
                = decide (s'' = rest.filter isAsciiAlphabetic) := by simp
            rw [hdec]
            cases hq : slot with
            | none =>
              rw [hq] at hget
              simp only [Option.getD_none]
              rw [memB_cons_none s'' (childAt_of_getElem hget), memB_new]
            | some u =>
              rw [hq] at hget
              simp only [Option.getD_some]
              rw [memB_cons_some s'' (childAt_of_getElem hget)]
          · have hdc : ¬(d = c) := fun h => hji (h ▸ rfl)
            have hdec : (decide (d :: s'' = c :: rest.filter isAsciiAlphabetic)) = false := by
              simp [hdc]
            rw [hdec, Bool.false_or]
            cases hq : TrieNode.childAt (.mk cs e) (d.toNat - 97) with
            | none =>
              rw [memB_cons_none s'' ((childAt_set_ne e (fun h => hji h.symm) child').trans hq),
                memB_cons_none s'' hq]
            | some u =>
              rw [memB_cons_some s'' ((childAt_set_ne e (fun h => hji h.symm) child').trans hq),
                memB_cons_some s'' hq]
    · obtain ⟨t', h1, h2, h3, h4⟩ := ih (.mk cs e) hwf (loweredOK_cons hlo)
      have hfilter : (c :: rest).filter isAsciiAlphabetic
          = rest.filter isAsciiAlphabetic := by
        rw [List.filter_cons_of_neg]
        simpa using hc
      refine ⟨t', ?_, h2, ?_, ?_⟩
      · simp only [insertGo, hc, if_false]
        exact h1
      · rw [hfilter]; exact h3
      · intro s' hs'
        rw [hfilter]
        exact h4 s' hs'

/-! The contains loop. -/

/-- On all-letter lowercased strings, the `contains` loop computes exactly
the specification-side membership. -/
theorem containsGo_letters (s : List Char) : ∀ t : TrieNode, WFb t = true →
    Letters s → containsGo t s = some (memB t s) := by
  induction s with
  | nil =>
    intro t _ _
    rw [memB_nil]
    rfl
  | cons c rest ih =>
    rintro ⟨cs, e⟩ hwf hs
    have hcl := hs c (List.mem_cons_self _ _)
    have hlen : cs.length = 26 := ((WFb_mk_iff cs e).1 hwf).1
    have hcwf : childrenWF cs = true := ((WFb_mk_iff cs e).1 hwf).2
    have hc : isAsciiAlphabetic c = true := letters_alpha hcl.1 hcl.2
    have hidx : charIndex? c = some (c.toNat - 97) := charIndex?_of_lower hcl.1
    obtain ⟨slot, hget⟩ : ∃ slot, cs[c.toNat - 97]? = some slot := by
      cases hq : cs[c.toNat - 97]? with
      | some slot => exact ⟨slot, rfl⟩
      | none =>
        rw [List.getElem?_eq_none_iff] at hq
        omega
    cases slot with
    | none =>
      rw [memB_cons_none rest (childAt_of_getElem hget)]
      simp only [containsGo, hc, if_true, hidx, TrieNode.children, hget]
    | some u =>
      rw [memB_cons_some rest (childAt_of_getElem hget)]
      have hu : WFb u = true := childrenWF_slot hcwf hget
      simp only [containsGo, hc, if_true, hidx, TrieNode.children, hget,
        ih u hu (letters_cons hs)]

/-- The `contains` loop rejects any lowercased string containing a
non-letter character. -/
theorem containsGo_nonletter (s : List Char) : ∀ t : TrieNode, WFb t = true →
    LoweredOK s → (∃ c ∈ s, isAsciiAlphabetic c = false) →
    containsGo t s = some false := by
  induction s with
  | nil =>
    intro t _ _ hex
    obtain ⟨c, hc, _⟩ := hex
    exact absurd hc (List.not_mem_nil c)
  | cons c rest ih =>
    rintro ⟨cs, e⟩ hwf hlo hex
    by_cases hc : isAsciiAlphabetic c = true
    · have hcl := loweredOK_head hlo hc
      have hlen : cs.length = 26 := ((WFb_mk_iff cs e).1 hwf).1
      have hcwf : childrenWF cs = true := ((WFb_mk_iff cs e).1 hwf).2
      have hidx : charIndex? c = some (c.toNat - 97) := charIndex?_of_lower hcl.1
      obtain ⟨slot, hget⟩ : ∃ slot, cs[c.toNat - 97]? = some slot := by
        cases hq : cs[c.toNat - 97]? with
        | some slot => exact ⟨slot, rfl⟩
        | none =>
          rw [List.getElem?_eq_none_iff] at hq
          omega
      have hex' : ∃ d ∈ rest, isAsciiAlphabetic d = false := by
        obtain ⟨d, hd, hdf⟩ := hex
        rcases List.mem_cons.1 hd with rfl | hm
        · rw [hc] at hdf; cases hdf
        · exact ⟨d, hm, hdf⟩
      cases slot with
      | none =>
        simp only [containsGo, hc, if_true, hidx, TrieNode.children, hget]
      | some u =>
        have hu : WFb u = true := childrenWF_slot hcwf hget
        simp only [containsGo, hc, if_true, hidx, TrieNode.children, hget,
          ih u hu (loweredOK_cons hlo) hex']
    · simp [containsGo, hc]

/-! The words descent loop. -/

/-- The descent loop never panics on a lowercased input over a well-formed
trie.  When it reaches a node, that node stores exactly the extensions of
the letter-only projection of the input; when it stops early, nothing
extends that projection. -/
theorem descend_spec (s : List Char) : ∀ t : TrieNode, WFb t = true → LoweredOK s →
    (∃ u, descend t s = some (some u) ∧ WFb u = true ∧
      ∀ s', memB u s' = memB t (s.filter isAsciiAlphabetic ++ s')) ∨
    (descend t s = some none ∧
      ∀ s', memB t (s.filter isAsciiAlphabetic ++ s') = false) := by
  induction s with
  | nil =>
    intro t hwf _
    exact Or.inl ⟨t, rfl, hwf, fun s' => by simp⟩
  | cons c rest ih =>
    rintro ⟨cs, e⟩ hwf hlo
    by_cases hc : isAsciiAlphabetic c = true
    · have hcl := loweredOK_head hlo hc
      have hlen : cs.length = 26 := ((WFb_mk_iff cs e).1 hwf).1
      have hcwf : childrenWF cs = true := ((WFb_mk_iff cs e).1 hwf).2
      have hidx : charIndex? c = some (c.toNat - 97) := charIndex?_of_lower hcl.1
      obtain ⟨slot, hget⟩ : ∃ slot, cs[c.toNat - 97]? = some slot := by
        cases hq : cs[c.toNat - 97]? with
        | some slot => exact ⟨slot, rfl⟩
        | none => rw [List.getElem?_eq_none_iff] at hq; omega
      have hfilter : (c :: rest).filter isAsciiAlphabetic
          = c :: rest.filter isAsciiAlphabetic := List.filter_cons_of_pos hc
      cases slot with
      | none =>
        refine Or.inr ⟨?_, ?_⟩
        · simp only [descend, hc, if_true, hidx, TrieNode.children, hget]
        · intro s'
          rw [hfilter, List.cons_append, memB_cons_none _ (childAt_of_getElem hget)]
      | some u =>
        have hu : WFb u = true := childrenWF_slot hcwf hget
        rcases ih u hu (loweredOK_cons hlo) with ⟨v, h1, h2, h3⟩ | ⟨h1, h2⟩
        · refine Or.inl ⟨v, ?_, h2, ?_⟩
          · simp only [descend, hc, if_true, hidx, TrieNode.children, hget, h1]
          · intro s'
            rw [hfilter, List.cons_append, memB_cons_some _ (childAt_of_getElem hget), h3]
        · refine Or.inr ⟨?_, ?_⟩
          · simp only [descend, hc, if_true, hidx, TrieNode.children, hget, h1]
          · intro s'
            rw [hfilter, List.cons_append, memB_cons_some _ (childAt_of_getElem hget), h2]
    · rcases ih (.mk cs e) hwf (loweredOK_cons hlo) with ⟨v, h1, h2, h3⟩ | ⟨h1, h2⟩
      · refine Or.inl ⟨v, ?_, h2, ?_⟩
        · simp only [descend, hc, if_false]
          exact h1
        · intro s'
          rw [List.filter_cons_of_neg (by simpa using hc)]
          exact h3 s'
      · refine Or.inr ⟨?_, ?_⟩
        · simp only [descend, hc, if_false]
          exact h1
        · intro s'
          rw [List.filter_cons_of_neg (by simpa using hc)]
          exact h2 s'

/-! Induction infrastructure over the node structure. -/

/-- A present child contributes its size to the children size. -/
theorem childrenSize_getElem {cs : List (Option TrieNode)} : ∀ {k : Nat} {u : TrieNode},
    cs[k]? = some (some u) → u.size ≤ childrenSize cs := by
  induction cs with
  | nil => intro k u h; simp at h
  | cons hd rest ih =>
    intro k u h
    cases k with
    | zero =>
      rw [List.getElem?_cons_zero] at h
      injection h with h'
      subst h'
      simp only [childrenSize]
      omega
    | succ k =>
      rw [List.getElem?_cons_succ] at h
      have := ih h
      cases hd with
      | none => simp only [childrenSize]; omega
      | some v => simp only [childrenSize]; omega

/-- Children are smaller than their parent. -/
theorem size_lt_of_child {cs : List (Option TrieNode)} {e : Bool} {k : Nat} {u : TrieNode}
    (h : cs[k]? = some (some u)) : u.size < (TrieNode.mk cs e).size := by
  have := childrenSize_getElem h
  simp only [TrieNode.size]
  omega

/-- Strong induction on the node count. -/
theorem node_strong_ind (P : TrieNode → Prop)
    (ih : ∀ t, (∀ u, TrieNode.size u < TrieNode.size t → P u) → P t) : ∀ t, P t := by
  have key : ∀ n t, TrieNode.size t ≤ n → P t := by
    intro n
    induction n with
    | zero =>
      intro t ht
      exact ih t (fun u hu => absurd (Nat.lt_of_lt_of_le hu ht) (Nat.not_lt_zero _))
    | succ n ihn =>
      intro t ht
      exact ih t (fun u hu => ihn u (by omega))
  exact fun t => key (TrieNode.size t) t (Nat.le_refl _)

/-- An index holding a value is in range. -/
theorem getElem?_lt {α : Type} {l : List α} {k : Nat} {a : α}
    (h : l[k]? = some a) : k < l.length := by
  by_contra hk
  rw [List.getElem?_eq_none_iff.2 (by omega)] at h
  cases h

/-! Membership in the collection loop. -/

/-- Membership characterization of the child-iteration loop of
`collect_words`. -/
theorem mem_collectFrom_iff (cs : List (Option TrieNode)) : ∀ (i : Nat) (pre s : List Char),
    s ∈ collectFrom cs i pre ↔
      ∃ k u, cs[k]? = some (some u) ∧ s ∈ collect_words u (pre ++ [letterChar (i + k)]) := by
  induction cs with
  | nil =>
    intro i pre s
    simp [collectFrom]
  | cons hd rest ih =>
    intro i pre s
    cases hd with
    | none =>
      rw [show collectFrom (none :: rest) i pre = collectFrom rest (i + 1) pre from rfl, ih]
      constructor
      · rintro ⟨k, u, h1, h2⟩
        refine ⟨k + 1, u, ?_, ?_⟩
        · rw [List.getElem?_cons_succ]; exact h1
        · rw [show i + (k + 1) = i + 1 + k from by omega]; exact h2
      · rintro ⟨k, u, h1, h2⟩
        cases k with
        | zero =>
          rw [List.getElem?_cons_zero] at h1
          injection h1 with h1'
          cases h1'
        | succ k =>
          rw [List.getElem?_cons_succ] at h1
          exact ⟨k, u, h1, by rw [show i + 1 + k = i + (k + 1) from by omega]; exact h2⟩
    | some v =>
      rw [show collectFrom (some v :: rest) i pre
            = collect_words v (pre ++ [letterChar i]) ++ collectFrom rest (i + 1) pre from rfl,
          List.mem_append, ih]
      constructor
      · rintro (h | ⟨k, u, h1, h2⟩)
        · exact ⟨0, v, by rw [List.getElem?_cons_zero], by rw [Nat.add_zero]; exact h⟩
        · exact ⟨k + 1, u, by rw [List.getElem?_cons_succ]; exact h1,
            by rw [show i + (k + 1) = i + 1 + k from by omega]; exact h2⟩
      · rintro ⟨k, u, h1, h2⟩
        cases k with
        | zero =>
          rw [List.getElem?_cons_zero] at h1
          injection h1 with h1'
          injection h1' with h1''
          subst h1''
          rw [Nat.add_zero] at h2
          exact Or.inl h2
        | succ k =>
          rw [List.getElem?_cons_succ] at h1
          exact Or.inr ⟨k, u, h1, by rw [show i + 1 + k = i + (k + 1) from by omega]; exact h2⟩

/-- Absent slots give no child. -/
theorem childAt_none {cs : List (Option TrieNode)} {e : Bool} {j : Nat}
    (h : cs[j]? = none) : TrieNode.childAt (.mk cs e) j = none := by
  rw [childAt_mk, h]; rfl

/-- Membership in `collect_words`: exactly the stored suffixes of the start
node, each appended to the accumulated prefix. -/
theorem collect_words_mem : ∀ t : TrieNode, WFb t = true → ∀ pre s,
    s ∈ collect_words t pre ↔ ∃ suf, Letters suf ∧ memB t suf = true ∧ s = pre ++ suf := by
  apply node_strong_ind
  rintro ⟨cs, e⟩ sih hwf pre s
  have hlen : cs.length = 26 := ((WFb_mk_iff cs e).1 hwf).1
  have hcwf : childrenWF cs = true := ((WFb_mk_iff cs e).1 hwf).2
  rw [show collect_words (.mk cs e) pre
        = (if e then [pre] else []) ++ collectFrom cs 0 pre from rfl,
    List.mem_append, mem_collectFrom_iff]
  constructor
  · rintro (h | ⟨k, u, h1, h2⟩)
    · refine ⟨[], ?_, ?_, ?_⟩
      · intro c hc; simp at hc
      · rw [memB_nil]
        cases e with
        | true => rfl
        | false => simp at h
      · cases e with
        | true =>
          rw [List.append_nil]
          simpa using h
        | false => simp at h
    · have hk : k < cs.length := getElem?_lt h1
      have hk26 : k < 26 := by omega
      have hu : WFb u = true := childrenWF_slot hcwf h1
      have hsz : u.size < (TrieNode.mk cs e).size := size_lt_of_child h1
      rw [sih u hsz hu] at h2
      obtain ⟨suf, hsuf1, hsuf2, hsuf3⟩ := h2
      refine ⟨letterChar k :: suf, ?_, ?_, ?_⟩
      · intro c hc
        rcases List.mem_cons.1 hc with rfl | hm
        · exact letterChar_lower hk26
        · exact hsuf1 c hm
      · rw [memB_cons_some suf (by rw [letterChar_sub hk26]; exact childAt_of_getElem h1)]
        exact hsuf2
      · rw [hsuf3, Nat.zero_add]
        simp
  · rintro ⟨suf, hsuf1, hsuf2, hsuf3⟩
    cases suf with
    | nil =>
      rw [memB_nil] at hsuf2
      rw [List.append_nil] at hsuf3
      subst hsuf3
      left
      cases e with
      | true => simp
      | false => simp [TrieNode.is_end_of_word] at hsuf2
    | cons c suf' =>
      have hcl := hsuf1 c (List.mem_cons_self _ _)
      cases hq : cs[c.toNat - 97]? with
      | none =>
        rw [memB_cons_none suf' (childAt_none hq)] at hsuf2
        cases hsuf2
      | some slot =>
        cases slot with
        | none =>
          rw [memB_cons_none suf' (childAt_of_getElem hq)] at hsuf2
          cases hsuf2
        | some u =>
          rw [memB_cons_some suf' (childAt_of_getElem hq)] at hsuf2
          right
          have hu : WFb u = true := childrenWF_slot hcwf hq
          have hsz : u.size < (TrieNode.mk cs e).size := size_lt_of_child hq
          refine ⟨c.toNat - 97, u, hq, ?_⟩
          rw [sih u hsz hu]
          refine ⟨suf', letters_cons hsuf1, hsuf2, ?_⟩
          rw [hsuf3, Nat.zero_add, letterChar_index hcl.1 hcl.2]
          simp

/-! Lexicographic order of the output. -/

/-- Strict lexicographic order on character lists (code-point order on the
characters). -/
def strLt (x y : List Char) : Prop := List.Lex (· < ·) x y

/-- Character strict order is code-point order, definitionally. -/
theorem char_lt_iff (a b : Char) : a < b ↔ a.toNat < b.toNat := Iff.rfl

theorem strLt_append (p : List Char) {x y : List Char} (h : strLt x y) :
    strLt (p ++ x) (p ++ y) := by
  induction p with
  | nil => exact h
  | cons a p ih => exact List.Lex.cons ih

theorem strLt_proper (p : List Char) (c : Char) (s : List Char) :
    strLt p (p ++ c :: s) := by
  induction p with
  | nil => exact List.Lex.nil
  | cons a p ih => exact List.Lex.cons ih

theorem strLt_irrefl (x : List Char) : ¬ strLt x x := by
  induction x with
  | nil => intro h; cases h
  | cons a x ih =>
    intro h
    cases h with
    | cons h => exact ih h
    | rel h => exact absurd h (lt_irrefl a)

/-- Shape of the strings produced by the child-iteration loop. -/
theorem collectFrom_shape {cs : List (Option TrieNode)} (hcwf : childrenWF cs = true)
    (i : Nat) (pre s : List Char) (hbound : i + cs.length ≤ 26)
    (hs : s ∈ collectFrom cs i pre) :
    ∃ j suf, i ≤ j ∧ j < i + cs.length ∧ s = pre ++ letterChar j :: suf := by
  rw [mem_collectFrom_iff] at hs
  obtain ⟨k, u, h1, h2⟩ := hs
  have hk : k < cs.length := getElem?_lt h1
  have hu : WFb u = true := childrenWF_slot hcwf h1
  rw [collect_words_mem u hu] at h2
  obtain ⟨suf, _, _, h3⟩ := h2
  exact ⟨i + k, suf, by omega, by omega, by rw [h3]; simp⟩

/-- The child-iteration loop produces a strictly ascending sequence. -/
theorem collectFrom_sorted {cs : List (Option TrieNode)} :
    ∀ (i : Nat) (pre : List Char), childrenWF cs = true → i + cs.length ≤ 26 →
    (∀ (k : Nat) (u : TrieNode), cs[k]? = some (some u) →
      ∀ pre', (collect_words u pre').Pairwise strLt) →
    (collectFrom cs i pre).Pairwise strLt := by
  induction cs with
  | nil => intro i pre _ _ _; exact List.Pairwise.nil
  | cons hd rest ih =>
    intro i pre hcwf hbound hchild
    rw [List.length_cons] at hbound
    cases hd with
    | none =>
      rw [show collectFrom (none :: rest) i pre = collectFrom rest (i + 1) pre from rfl]
      refine ih (i + 1) pre ?_ (by omega) ?_
      · rw [show childrenWF (none :: rest) = childrenWF rest from rfl] at hcwf
        exact hcwf
      · intro k u h1 pre'
        exact hchild (k + 1) u (by rw [List.getElem?_cons_succ]; exact h1) pre'
    | some v =>
      have hcwf' : WFb v = true ∧ childrenWF rest = true := by
        rw [show childrenWF (some v :: rest) = (WFb v && childrenWF rest) from rfl,
          Bool.and_eq_true] at hcwf
        exact hcwf
      rw [show collectFrom (some v :: rest) i pre
            = collect_words v (pre ++ [letterChar i]) ++ collectFrom rest (i + 1) pre from rfl,
        List.pairwise_append]
      refine ⟨hchild 0 v (by rw [List.getElem?_cons_zero]) _,
        ih (i + 1) pre hcwf'.2 (by omega)
          (fun k u h1 pre' => hchild (k + 1) u (by rw [List.getElem?_cons_succ]; exact h1) pre'),
        ?_⟩
      intro s1 hs1 s2 hs2
      rw [collect_words_mem v hcwf'.1] at hs1
      obtain ⟨suf1, _, _, h13⟩ := hs1
      obtain ⟨j, suf2, hj1, hj2, h23⟩ :=
        collectFrom_shape hcwf'.2 (i + 1) pre s2 (by omega) hs2
      rw [h13, h23]
      have hlex : strLt (letterChar i :: suf1) (letterChar j :: suf2) :=
        List.Lex.rel (by
          rw [char_lt_iff, letterChar_toNat (by omega), letterChar_toNat (by omega)]
          omega)
      have hfull := strLt_append pre hlex
      simpa using hfull

/-- The collected word list is strictly ascending in lexicographic order. -/
theorem collect_words_sorted : ∀ t : TrieNode, WFb t = true → ∀ pre,
    (collect_words t pre).Pairwise strLt := by
  apply node_strong_ind
  rintro ⟨cs, e⟩ sih hwf pre
  have hlen : cs.length = 26 := ((WFb_mk_iff cs e).1 hwf).1
  have hcwf : childrenWF cs = true := ((WFb_mk_iff cs e).1 hwf).2
  rw [show collect_words (.mk cs e) pre
        = (if e then [pre] else []) ++ collectFrom cs 0 pre from rfl,
    List.pairwise_append]
  refine ⟨by cases e <;> simp, ?_, ?_⟩
  · refine collectFrom_sorted 0 pre hcwf (by omega) ?_
    intro k u h1 pre'
    exact sih u (size_lt_of_child h1) (childrenWF_slot hcwf h1) pre'
  · intro s1 hs1 s2 hs2
    cases e with
    | false => simp at hs1
    | true =>
      simp at hs1
      obtain ⟨j, suf, _, _, h3⟩ := collectFrom_shape hcwf 0 pre s2 (by omega) hs2
      rw [hs1, h3]
      exact strLt_proper pre _ _

/-! Top-level description of the public operations. -/

/-- Unfolding of the normalized key. -/
theorem normKey_eq (w : List Char) :
    normKey w = (toLowercase w).filter isAsciiAlphabetic := rfl

/-- Full description of `Trie::words` on a well-formed trie: it never
panics, its output is strictly ascending, and it holds exactly the given
string followed by each stored extension of the normalized form of the
given string. -/
theorem words_spec (t : Trie) (hwf : WFb t.root = true) (p : List Char) :
    ∃ L, t.words p = some L ∧ L.Pairwise strLt ∧
      ∀ s, s ∈ L ↔ ∃ suf, Letters suf ∧
        memB t.root (normKey p ++ suf) = true ∧ s = p ++ suf := by
  rcases descend_spec (toLowercase p) t.root hwf (loweredOK_toLowercase p)
    with ⟨u, h1, h2, h3⟩ | ⟨h1, h2⟩
  · refine ⟨collect_words u p, ?_, collect_words_sorted u h2 p, ?_⟩
    · rw [Trie.words, h1]
    · intro s
      rw [collect_words_mem u h2]
      constructor
      · rintro ⟨suf, hs1, hs2, hs3⟩
        refine ⟨suf, hs1, ?_, hs3⟩
        rw [normKey_eq, ← h3]
        exact hs2
      · rintro ⟨suf, hs1, hs2, hs3⟩
        refine ⟨suf, hs1, ?_, hs3⟩
        rw [h3]
        rw [normKey_eq] at hs2
        exact hs2
  · refine ⟨[], ?_, List.Pairwise.nil, ?_⟩
    · rw [Trie.words, h1]
    · intro s
      simp only [List.not_mem_nil, false_iff]
      rintro ⟨suf, hs1, hs2, hs3⟩
      rw [normKey_eq, h2 suf] at hs2
      cases hs2

/-- Folding inserts over an arbitrary well-formed start trie. -/
theorem buildTrie_aux : ∀ (ws : List (List Char)) (t : Trie), WFb t.root = true →
    ∃ T : Trie, ws.foldl (fun acc w => acc.bind fun tr => tr.insert w) (some t) = some T ∧
      WFb T.root = true ∧
      T.root.is_end_of_word
        = (t.root.is_end_of_word || ws.any fun w => (normKey w).isEmpty) ∧
      ∀ s', Letters s' →
        memB T.root s' = (decide (s' ∈ ws.map normKey) || memB t.root s') := by
  intro ws
  induction ws with
  | nil =>
    intro t hwf
    exact ⟨t, rfl, hwf, by simp, fun s' _ => by simp⟩
  | cons w ws ih =>
    intro t hwf
    obtain ⟨r, hr1, hr2, hr3, hr4⟩ :=
      insertGo_spec (toLowercase w) t.root hwf (loweredOK_toLowercase w)
    obtain ⟨T, hT1, hT2, hT3, hT4⟩ := ih ⟨r⟩ hr2
    rw [← normKey_eq] at hr3 hr4
    refine ⟨T, ?_, hT2, ?_, ?_⟩
    · rw [List.foldl_cons,
        show (some t).bind (fun tr => tr.insert w) = t.insert w from rfl,
        Trie.insert, hr1]
      exact hT1
    · rw [hT3, show (Trie.mk r).root = r from rfl, hr3, List.any_cons, Bool.or_assoc]
    · intro s' hs'
      rw [hT4 s' hs', show (Trie.mk r).root = r from rfl, hr4 s' hs']
      by_cases h1 : s' = normKey w <;> by_cases h2 : s' ∈ ws.map normKey <;>
        simp [List.map_cons, List.mem_cons, h1, h2]

/-- Full description of a trie built by a sequence of inserts: the build
never panics, the result is well-formed, the root flag records whether a
letter-free word was inserted, and the stored set is exactly the normalized
keys of the inserted words. -/
theorem buildTrie_spec (ws : List (List Char)) :
    ∃ T, buildTrie ws = some T ∧ WFb T.root = true ∧
      T.root.is_end_of_word = (ws.any fun w => (normKey w).isEmpty) ∧
      ∀ s', Letters s' → memB T.root s' = decide (s' ∈ ws.map normKey) := by
  obtain ⟨T, h1, h2, h3, h4⟩ := buildTrie_aux ws Trie.new WFb_new
  refine ⟨T, h1, h2, ?_, ?_⟩
  · rw [h3]
    rfl
  · intro s' hs'
    rw [h4 s' hs', show Trie.new.root = TrieNode.new from rfl, memB_new]
    simp

/-! Idempotence and monotonicity of insertion. -/

/-- Inserting a key that was just inserted returns the very same trie. -/
theorem insertGo_idem (s : List Char) : ∀ t t' : TrieNode, WFb t = true → LoweredOK s →
    insertGo t s = some t' → insertGo t' s = some t' := by
  induction s with
  | nil =>
    rintro ⟨cs, e⟩ t' _ _ h
    injection h with h'
    subst h'
    rfl
  | cons c rest ih =>
    rintro ⟨cs, e⟩ t' hwf hlo h
    by_cases hc : isAsciiAlphabetic c = true
    · have hcl := loweredOK_head hlo hc
      have hlen : cs.length = 26 := ((WFb_mk_iff cs e).1 hwf).1
      have hcwf : childrenWF cs = true := ((WFb_mk_iff cs e).1 hwf).2
      have hidx : charIndex? c = some (c.toNat - 97) := charIndex?_of_lower hcl.1
      obtain ⟨slot, hget⟩ : ∃ slot, cs[c.toNat - 97]? = some slot := by
        cases hq : cs[c.toNat - 97]? with
        | some slot => exact ⟨slot, rfl⟩
        | none => rw [List.getElem?_eq_none_iff] at hq; omega
      obtain ⟨child', hins⟩ : ∃ child',
          insertGo (slot.getD TrieNode.new) rest = some child' := by
        obtain ⟨c', hc', _, _, _⟩ := insertGo_spec rest (slot.getD TrieNode.new)
          (WFb_getD hcwf hget) (loweredOK_cons hlo)
        exact ⟨c', hc'⟩
      rw [show insertGo (TrieNode.mk cs e) (c :: rest)
            = some (.mk (cs.set (c.toNat - 97) (some child')) e) from by
          simp only [insertGo, hc, if_true, hidx, TrieNode.children, hget, hins,
            TrieNode.is_end_of_word]] at h
      injection h with h'
      subst h'
      have hlt : c.toNat - 97 < cs.length := by omega
      have hget2 : (cs.set (c.toNat - 97) (some child'))[c.toNat - 97]? = some (some child') :=
        List.getElem?_set_self hlt
      have hins2 : insertGo child' rest = some child' :=
        ih (slot.getD TrieNode.new) child' (WFb_getD hcwf hget) (loweredOK_cons hlo) hins
      rw [show insertGo (TrieNode.mk (cs.set (c.toNat - 97) (some child')) e) (c :: rest)
            = some (.mk ((cs.set (c.toNat - 97) (some child')).set (c.toNat - 97)
                (some child')) e) from by
          simp only [insertGo, hc, if_true, hidx, TrieNode.children, hget2,
            show (some child').getD TrieNode.new = child' from rfl, hins2,
            TrieNode.is_end_of_word],
        List.set_set]
    · rw [show insertGo (TrieNode.mk cs e) (c :: rest)
            = insertGo (TrieNode.mk cs e) rest from by simp [insertGo, hc]] at h
      have hsecond := ih (.mk cs e) t' hwf (loweredOK_cons hlo) h
      rw [show insertGo t' (c :: rest) = insertGo t' rest from by simp [insertGo, hc]]
      exact hsecond

/-- Inserting a string with no letters only sets the root flag. -/
theorem insertGo_noletter (s : List Char) : ∀ t : TrieNode,
    (∀ c ∈ s, isAsciiAlphabetic c = false) →
    insertGo t s = some (.mk t.children true) := by
  induction s with
  | nil => intro t _; rfl
  | cons c rest ih =>
    intro t hall
    have hc : isAsciiAlphabetic c = false := hall c (List.mem_cons_self _ _)
    rw [show insertGo t (c :: rest) = insertGo t rest from by simp [insertGo, hc]]
    exact ih t (fun d hd => hall d (List.mem_cons_of_mem _ hd))

/-- Node count only depends on the children. -/
theorem size_mk (cs : List (Option TrieNode)) (e : Bool) :
    (TrieNode.mk cs e).size = 1 + childrenSize cs := rfl


mutual
/-- Structural growth order on tries: flags are only raised and child slots
are only filled or grown, never removed or replaced. -/
inductive NodeLe : TrieNode → TrieNode → Prop where
  | mk : ∀ (cs cs' : List (Option TrieNode)) (e e' : Bool),
      (e = true → e' = true) → ChildrenLe cs cs' → NodeLe (.mk cs e) (.mk cs' e')

/-- Pointwise growth order on children lists: an absent slot may stay absent
or be filled, a present child only grows. -/
inductive ChildrenLe : List (Option TrieNode) → List (Option TrieNode) → Prop where
  | nil : ChildrenLe [] []
  | cons_none : ∀ (s' : Option TrieNode) (cs cs' : List (Option TrieNode)),
      ChildrenLe cs cs' → ChildrenLe (none :: cs) (s' :: cs')
  | cons_some : ∀ (c c' : TrieNode) (cs cs' : List (Option TrieNode)),
      NodeLe c c' → ChildrenLe cs cs' → ChildrenLe (some c :: cs) (some c' :: cs')
end

/-- Present children stay present, at the same index, and only grow. -/
theorem childrenLe_get : ∀ (cs cs' : List (Option TrieNode)), ChildrenLe cs cs' →
    ∀ (i : Nat) (c : TrieNode), cs[i]? = some (some c) →
      ∃ c', cs'[i]? = some (some c') ∧ NodeLe c c' := by
  intro cs
  induction cs with
  | nil =>
    intro cs' _ i c hi
    simp at hi
  | cons hd rest ih =>
    intro cs' h i c hi
    cases h with
    | cons_none s' cs0 cs0' htail =>
      cases i with
      | zero =>
        rw [List.getElem?_cons_zero] at hi
        injection hi with hi'
        cases hi'
      | succ i =>
        rw [List.getElem?_cons_succ] at hi
        obtain ⟨c', h1, h2⟩ := ih cs0' htail i c hi
        exact ⟨c', by rw [List.getElem?_cons_succ]; exact h1, h2⟩
    | cons_some c0 c0' cs0 cs0' hle htail =>
      cases i with
      | zero =>
        rw [List.getElem?_cons_zero] at hi
        injection hi with hi'
        injection hi' with hi''
        subst hi''
        exact ⟨c0', by rw [List.getElem?_cons_zero], hle⟩
      | succ i =>
        rw [List.getElem?_cons_succ] at hi
        obtain ⟨c', h1, h2⟩ := ih cs0' htail i c hi
        exact ⟨c', by rw [List.getElem?_cons_succ]; exact h1, h2⟩

/-- Children lists grow reflexively once every present child does. -/
theorem childrenLe_refl_of : ∀ cs : List (Option TrieNode),
    (∀ (k : Nat) (u : TrieNode), cs[k]? = some (some u) → NodeLe u u) →
    ChildrenLe cs cs := by
  intro cs
  induction cs with
  | nil => intro _; exact ChildrenLe.nil
  | cons hd rest ih =>
    intro h
    cases hd with
    | none =>
      exact ChildrenLe.cons_none none rest rest
        (ih fun k u hk => h (k + 1) u (by rw [List.getElem?_cons_succ]; exact hk))
    | some u =>
      exact ChildrenLe.cons_some u u rest rest
        (h 0 u (by rw [List.getElem?_cons_zero]))
        (ih fun k v hk => h (k + 1) v (by rw [List.getElem?_cons_succ]; exact hk))

/-- The growth order is reflexive. -/
theorem nodeLe_refl : ∀ t : TrieNode, NodeLe t t := by
  apply node_strong_ind
  rintro ⟨cs, e⟩ sih
  exact NodeLe.mk cs cs e e (fun h => h)
    (childrenLe_refl_of cs fun k u hk => sih u (size_lt_of_child hk))

/-- The children lists grow reflexively. -/
theorem childrenLe_refl (cs : List (Option TrieNode)) : ChildrenLe cs cs :=
  childrenLe_refl_of cs fun _ u _ => nodeLe_refl u

/-- Updating a previously absent slot grows the children list. -/
theorem childrenLe_set_none : ∀ (cs : List (Option TrieNode)) (i : Nat) (v : TrieNode),
    cs[i]? = some none → ChildrenLe cs (cs.set i (some v)) := by
  intro cs
  induction cs with
  | nil => intro i v h; simp at h
  | cons hd rest ih =>
    intro i v h
    cases i with
    | zero =>
      rw [List.getElem?_cons_zero] at h
      injection h with h'
      subst h'
      exact ChildrenLe.cons_none (some v) rest rest (childrenLe_refl rest)
    | succ i =>
      rw [List.getElem?_cons_succ] at h
      rw [List.set_cons_succ]
      cases hd with
      | none => exact ChildrenLe.cons_none none _ _ (ih i v h)
      | some u => exact ChildrenLe.cons_some u u _ _ (nodeLe_refl u) (ih i v h)

/-- Growing a previously present child grows the children list. -/
theorem childrenLe_set_some : ∀ (cs : List (Option TrieNode)) (i : Nat) (u v : TrieNode),
    cs[i]? = some (some u) → NodeLe u v → ChildrenLe cs (cs.set i (some v)) := by
  intro cs
  induction cs with
  | nil => intro i u v h _; simp at h
  | cons hd rest ih =>
    intro i u v h hle
    cases i with
    | zero =>
      rw [List.getElem?_cons_zero] at h
      injection h with h'
      subst h'
      exact ChildrenLe.cons_some u v rest rest hle (childrenLe_refl rest)
    | succ i =>
      rw [List.getElem?_cons_succ] at h
      rw [List.set_cons_succ]
      cases hd with
      | none => exact ChildrenLe.cons_none none _ _ (ih i u v h hle)
      | some w => exact ChildrenLe.cons_some w w _ _ (nodeLe_refl w) (ih i u v h hle)

/-- Insertion only grows the trie in the structural order. -/
theorem insertGo_le (s : List Char) : ∀ t t' : TrieNode, WFb t = true → LoweredOK s →
    insertGo t s = some t' → NodeLe t t' := by
  induction s with
  | nil =>
    rintro ⟨cs, e⟩ t' _ _ h
    injection h with h'
    subst h'
    exact NodeLe.mk cs cs e true (fun _ => rfl) (childrenLe_refl cs)
  | cons c rest ih =>
    rintro ⟨cs, e⟩ t' hwf hlo h
    by_cases hc : isAsciiAlphabetic c = true
    · have hcl := loweredOK_head hlo hc
      have hlen : cs.length = 26 := ((WFb_mk_iff cs e).1 hwf).1
      have hcwf : childrenWF cs = true := ((WFb_mk_iff cs e).1 hwf).2
      have hidx : charIndex? c = some (c.toNat - 97) := charIndex?_of_lower hcl.1
      obtain ⟨slot, hget⟩ : ∃ slot, cs[c.toNat - 97]? = some slot := by
        cases hq : cs[c.toNat - 97]? with
        | some slot => exact ⟨slot, rfl⟩
        | none => rw [List.getElem?_eq_none_iff] at hq; omega
      obtain ⟨child', hins⟩ : ∃ child',
          insertGo (slot.getD TrieNode.new) rest = some child' := by
        obtain ⟨c', hc', _, _, _⟩ := insertGo_spec rest (slot.getD TrieNode.new)
          (WFb_getD hcwf hget) (loweredOK_cons hlo)
        exact ⟨c', hc'⟩
      rw [show insertGo (TrieNode.mk cs e) (c :: rest)
            = some (.mk (cs.set (c.toNat - 97) (some child')) e) from by
          simp only [insertGo, hc, if_true, hidx, TrieNode.children, hget, hins,
            TrieNode.is_end_of_word]] at h
      injection h with h'
      subst h'
      refine NodeLe.mk cs _ e e (fun hh => hh) ?_
      cases slot with
      | none => exact childrenLe_set_none cs _ child' hget
      | some u =>
        refine childrenLe_set_some cs _ u child' hget ?_
        exact ih u child' (childrenWF_slot hcwf hget) (loweredOK_cons hlo)
          (by rw [show (some u).getD TrieNode.new = u from rfl] at hins; exact hins)
    · rw [show insertGo (TrieNode.mk cs e) (c :: rest)
            = insertGo (TrieNode.mk cs e) rest from by simp [insertGo, hc]] at h
      exact ih (.mk cs e) t' hwf (loweredOK_cons hlo) h

/-- A lookup that succeeds keeps succeeding in any structurally larger trie. -/
theorem containsGo_mono (s : List Char) : ∀ t u : TrieNode, NodeLe t u →
    containsGo t s = some true → containsGo u s = some true := by
  induction s with
  | nil =>
    intro t u hle h
    cases hle with
    | mk cs cs' e e' hflag hch =>
      rw [show containsGo (TrieNode.mk cs e) [] = some e from rfl] at h
      injection h with h'
      rw [show containsGo (TrieNode.mk cs' e') [] = some e' from rfl,
        hflag h']
  | cons c rest ih =>
    intro t u hle h
    cases hle with
    | mk cs cs' e e' hflag hch =>
      by_cases hc : isAsciiAlphabetic c = true
      · cases hq : charIndex? c with
        | none =>
          simp only [containsGo, hc, if_true, hq] at h
          cases h
        | some i =>
          cases hget : cs[i]? with
          | none =>
            simp only [containsGo, hc, if_true, hq, TrieNode.children, hget] at h
            cases h
          | some slot =>
            cases slot with
            | none =>
              simp only [containsGo, hc, if_true, hq, TrieNode.children, hget] at h
              cases h
            | some child =>
              simp only [containsGo, hc, if_true, hq, TrieNode.children, hget] at h
              obtain ⟨child', hget', hle'⟩ := childrenLe_get cs cs' hch i child hget
              simp only [containsGo, hc, if_true, hq, TrieNode.children, hget']
              exact ih child child' hle' h
      · simp only [containsGo, hc, if_false] at h
        cases h

/-- The lookup loop never panics on a lowercased input. -/
theorem containsGo_total (s : List Char) (t : TrieNode) (hwf : WFb t = true)
    (hlo : LoweredOK s) : ∃ b, containsGo t s = some b := by
  by_cases hall : ∀ c ∈ s, isAsciiAlphabetic c = true
  · exact ⟨memB t s, containsGo_letters s t hwf (fun c hc => hlo c hc (hall c hc))⟩
  · push_neg at hall
    obtain ⟨c, hc, hc2⟩ := hall
    exact ⟨false, containsGo_nonletter s t hwf hlo ⟨c, hc, by simpa using hc2⟩⟩

/-! Case-mapping identities. -/

/-- Lowering is idempotent on characters. -/
theorem lowerChar_lowerChar (c : Char) : lowerChar (lowerChar c) = lowerChar c := by
  apply char_eq_of_toNat_eq
  have h1 := lowerChar_toNat c
  have h2 := lowerChar_toNat (lowerChar c)
  split at h1 <;> split at h2 <;> omega

/-- Lowering after raising is lowering. -/
theorem lowerChar_upperChar (c : Char) : lowerChar (upperChar c) = lowerChar c := by
  apply char_eq_of_toNat_eq
  have h1 := upperChar_toNat c
  have h2 := lowerChar_toNat (upperChar c)
  have h3 := lowerChar_toNat c
  split at h1 <;> split at h2 <;> split at h3 <;> omega

/-- Lowering a string is idempotent. -/
theorem toLowercase_idem (w : List Char) :
    toLowercase (toLowercase w) = toLowercase w := by
  induction w with
  | nil => rfl
  | cons c rest ih =>
    simp only [toLowercase, List.map_cons, List.map_map] at ih ⊢
    rw [lowerChar_lowerChar, ih]

/-- Lowering after raising a string is lowering it. -/
theorem toLowercase_toUppercase (w : List Char) :
    toLowercase (toUppercase w) = toLowercase w := by
  induction w with
  | nil => rfl
  | cons c rest ih =>
    simp only [toLowercase, toUppercase, List.map_cons, List.map_map] at ih ⊢
    rw [lowerChar_upperChar, ih]

/-- Lowering preserves the alphabetic guard. -/
theorem lowerChar_alpha {c : Char} (h : isAsciiAlphabetic c = true) :
    isAsciiAlphabetic (lowerChar c) = true := by
  rw [isAsciiAlphabetic_iff] at h ⊢
  have h1 := lowerChar_toNat c
  split at h1 <;> omega

/-- After an insert, any all-letter string with the same normalized key as
the inserted word is contained. -/
theorem contains_after_insert (t : Trie) (w v : List Char) (hwf : WFb t.root = true)
    {t' : Trie} (hins : t.insert w = some t')
    (hall : ∀ c ∈ toLowercase v, isAsciiAlphabetic c = true)
    (hnorm : normKey v = normKey w) : t'.contains v = some true := by
  obtain ⟨r, hr1, hr2, _, hr4⟩ :=
    insertGo_spec (toLowercase w) t.root hwf (loweredOK_toLowercase w)
  have heq : some (Trie.mk r) = some t' := by
    rw [← hins, Trie.insert, hr1]
    rfl
  injection heq with heq'
  subst heq'
  have hLet : Letters (toLowercase v) :=
    fun c hc => loweredOK_toLowercase v c hc (hall c hc)
  rw [Trie.contains,
    containsGo_letters (toLowercase v) (Trie.mk r).root hr2 hLet]
  have hfil : toLowercase v = (toLowercase w).filter isAsciiAlphabetic := by
    rw [← normKey_eq, ← hnorm, normKey_eq]
    exact (List.filter_eq_self.2 hall).symm
  rw [show (Trie.mk r).root = r from rfl, hr4 (toLowercase v) hLet, hfil]
  simp

/-! Helper facts about normalized keys. -/

/-- Normalized keys consist of lowercase letters. -/
theorem letters_normKey (w : List Char) : Letters (normKey w) := by
  intro c hc
  rw [normKey_eq] at hc
  exact loweredOK_toLowercase w c (List.mem_of_mem_filter hc) (List.of_mem_filter hc)

/-- Letter strings are closed under concatenation. -/
theorem letters_append {s1 s2 : List Char} (h1 : Letters s1) (h2 : Letters s2) :
    Letters (s1 ++ s2) :=
  fun c hc => (List.mem_append.1 hc).elim (h1 c) (h2 c)

/-! The claims. -/

/-- Claim C1, counterexample: after inserting the key "ape", `words("A")`
returns the single string "Ape", which is neither lowercase letter-only nor
the normalized key "ape" — the code concatenates the ORIGINAL prefix
argument with the stored letters, so the claim as stated is false. -/
theorem C1_counterexample :
    ∃ t, Trie.new.insert ['a', 'p', 'e'] = some t ∧
      t.words ['A'] = some [['A', 'p', 'e']] ∧
      ¬Letters ['A', 'p', 'e'] ∧ ['A', 'p', 'e'] ≠ normKey ['a', 'p', 'e'] := by
  refine ⟨_, rfl, by decide, ?_, by decide⟩
  intro h
  exact absurd (h 'A' (by decide)) (by decide)

/-- Claim C1, amended: for every trie built by a sequence of inserts and
every prefix string p, `words(p)` returns, without duplicates, one string
for each inserted key whose normalized (letter-only, lowercased) form
extends the normalized form of p — namely p itself (verbatim, NOT
normalized) followed by the remainder of the normalized key after its
normalized prefix; in particular the output is empty when no normalized
key extends the normalized prefix. -/
theorem C1_words_normalized_keys (ws : List (List Char)) (p : List Char) :
    ∃ T L, buildTrie ws = some T ∧ T.words p = some L ∧ L.Nodup ∧
      ∀ s, s ∈ L ↔ ∃ w ∈ ws, normKey p <+: normKey w ∧
        s = p ++ (normKey w).drop (normKey p).length := by
  obtain ⟨T, h1, h2, _, h4⟩ := buildTrie_spec ws
  obtain ⟨L, g1, g2, g3⟩ := words_spec T h2 p
  refine ⟨T, L, h1, g1, ?_, ?_⟩
  · have : L.Pairwise (· ≠ ·) :=
      g2.imp (fun hab hEq => absurd (hEq ▸ hab) (strLt_irrefl _))
    exact this
  · intro s
    rw [g3 s]
    constructor
    · rintro ⟨suf, hs1, hs2, hs3⟩
      have hl : Letters (normKey p ++ suf) := letters_append (letters_normKey p) hs1
      rw [h4 _ hl] at hs2
      have hmem := of_decide_eq_true hs2
      obtain ⟨w, hw, hwk⟩ := List.mem_map.1 hmem
      refine ⟨w, hw, ?_, ?_⟩
      · rw [hwk]
        exact ⟨suf, rfl⟩
      · rw [hs3, hwk, List.drop_left]
    · rintro ⟨w, hw, hpre, hs⟩
      obtain ⟨suf, hsuf⟩ := hpre
      refine ⟨suf, ?_, ?_, ?_⟩
      · intro c hc
        exact letters_normKey w c (by rw [← hsuf]; exact List.mem_append_right _ hc)
      · rw [h4 _ (by rw [hsuf]; exact letters_normKey w), decide_eq_true_eq, hsuf]
        exact List.mem_map_of_mem normKey hw
      · rw [hs]
        congr 1
        rw [← hsuf, List.drop_left]

/-- Claim C2: after `insert(w)`, `contains(w')` is true for any string
whose lowercased form is all letters and whose normalized key equals that
of w. -/
theorem C2_insert_contains_normalized (t : Trie) (w w' : List Char)
    (hwf : WFb t.root = true)
    (hall : ∀ c ∈ toLowercase w', isAsciiAlphabetic c = true)
    (hnorm : normKey w' = normKey w) :
    ∃ t', t.insert w = some t' ∧ t'.contains w' = some true := by
  obtain ⟨r, hr1, _, _, _⟩ :=
    insertGo_spec (toLowercase w) t.root hwf (loweredOK_toLowercase w)
  have hins : t.insert w = some ⟨r⟩ := by rw [Trie.insert, hr1]; rfl
  exact ⟨⟨r⟩, hins, contains_after_insert t w w' hwf hins hall hnorm⟩

/-- Witness for C2 at a concrete input. -/
theorem C2_witness :
    (∀ c ∈ toLowercase ['a', 'p'], isAsciiAlphabetic c = true) ∧
    normKey ['a', 'p'] = normKey ['A', 'p'] ∧
    ∃ t', Trie.new.insert ['A', 'p'] = some t' ∧ t'.contains ['a', 'p'] = some true :=
  ⟨by decide, by decide,
    C2_insert_contains_normalized Trie.new ['A', 'p'] ['a', 'p'] rfl
      (by decide) (by decide)⟩

/-- Claim C3: `contains` rejects outright any string containing a character
that is not an ASCII letter after lowercasing, while `insert` elides such
characters; concretely, inserting "a straight-quote b" stores "ab". -/
theorem C3_contains_rejects_nonletters :
    (∀ (t : Trie) (w : List Char), WFb t.root = true →
      (∃ c ∈ toLowercase w, isAsciiAlphabetic c = false) →
      t.contains w = some false) ∧
    (∃ t', Trie.new.insert ['a', Char.ofNat 39, 'b'] = some t' ∧
      t'.contains ['a', 'b'] = some true ∧
      t'.contains ['a', Char.ofNat 39, 'b'] = some false) := by
  constructor
  · intro t w hwf hex
    rw [Trie.contains]
    exact containsGo_nonletter (toLowercase w) t.root hwf (loweredOK_toLowercase w) hex
  · refine ⟨_, rfl, ?_, ?_⟩ <;> decide

/-- Witness for C3 at a concrete input. -/
theorem C3_witness :
    Trie.new.contains ['a', Char.ofNat 33] = some false :=
  C3_contains_rejects_nonletters.1 Trie.new ['a', Char.ofNat 33] rfl (by decide)

/-- Claim C4: the output of `words` is strictly ascending lexicographically,
and on the trie holding exactly the keys apple, ape, ball the outputs for
the prefixes "ap", "b" and "z" are as the specification states. -/
theorem C4_words_sorted :
    (∀ (ws : List (List Char)) (p : List Char), ∃ T L, buildTrie ws = some T ∧
      T.words p = some L ∧ L.Pairwise strLt) ∧
    (∃ T, buildTrie [['a', 'p', 'p', 'l', 'e'], ['a', 'p', 'e'], ['b', 'a', 'l', 'l']]
        = some T ∧
      T.words ['a', 'p'] = some [['a', 'p', 'e'], ['a', 'p', 'p', 'l', 'e']] ∧
      T.words ['b'] = some [['b', 'a', 'l', 'l']] ∧
      T.words ['z'] = some []) := by
  constructor
  · intro ws p
    obtain ⟨T, h1, h2, _, _⟩ := buildTrie_spec ws
    obtain ⟨L, g1, g2, _⟩ := words_spec T h2 p
    exact ⟨T, L, h1, g1, g2⟩
  · refine ⟨_, rfl, ?_, ?_, ?_⟩ <;> decide

/-- Claim C5: insertion is idempotent — inserting the same word twice
yields the very same trie as inserting it once, so every `contains` and
`words` query agrees and the node count is unchanged. -/
theorem C5_insert_idem (t : Trie) (w : List Char) (hwf : WFb t.root = true) :
    ∃ t1 t2, t.insert w = some t1 ∧ t1.insert w = some t2 ∧ t2 = t1 ∧
      (∀ v, t2.contains v = t1.contains v) ∧
      (∀ q, t2.words q = t1.words q) ∧
      t2.root.size = t1.root.size := by
  obtain ⟨r, hr1, _, _, _⟩ :=
    insertGo_spec (toLowercase w) t.root hwf (loweredOK_toLowercase w)
  have h2 : insertGo r (toLowercase w) = some r :=
    insertGo_idem (toLowercase w) t.root r hwf (loweredOK_toLowercase w) hr1
  refine ⟨⟨r⟩, ⟨r⟩, ?_, ?_, rfl, fun v => rfl, fun q => rfl, rfl⟩
  · rw [Trie.insert, hr1]
    rfl
  · rw [Trie.insert, show (Trie.mk r).root = r from rfl, h2]
    rfl

/-- Witness for C5 at a concrete input. -/
theorem C5_witness :
    WFb Trie.new.root = true ∧
    ∃ t1 t2, Trie.new.insert ['a'] = some t1 ∧ t1.insert ['a'] = some t2 ∧ t2 = t1 ∧
      (∀ v, t2.contains v = t1.contains v) ∧
      (∀ q, t2.words q = t1.words q) ∧
      t2.root.size = t1.root.size :=
  ⟨rfl, C5_insert_idem Trie.new ['a'] rfl⟩

/-- Claim C6: inserting the empty string or any string whose normalized key
is empty merely sets the root flag, allocating no node; `contains("")` is
false on a fresh trie and true on a built trie exactly when such a word was
inserted. -/
theorem C6_empty_insert :
    (∀ (t : Trie) (w : List Char), normKey w = [] →
      t.insert w = some ⟨.mk t.root.children true⟩ ∧
      (TrieNode.mk t.root.children true).size = t.root.size) ∧
    Trie.new.contains [] = some false ∧
    (∀ ws : List (List Char), ∃ T, buildTrie ws = some T ∧
      (T.contains [] = some true ↔ ∃ w ∈ ws, normKey w = [])) := by
  refine ⟨?_, rfl, ?_⟩
  · intro t w hkey
    rw [normKey_eq, List.filter_eq_nil_iff] at hkey
    have hall : ∀ c ∈ toLowercase w, isAsciiAlphabetic c = false := by
      intro c hc
      have := hkey c hc
      simpa using this
    constructor
    · rw [Trie.insert, insertGo_noletter (toLowercase w) t.root hall]
      rfl
    · rcases t with ⟨⟨cs, e⟩⟩
      rfl
  · intro ws
    obtain ⟨T, h1, _, h3, _⟩ := buildTrie_spec ws
    refine ⟨T, h1, ?_⟩
    rw [show T.contains [] = some T.root.is_end_of_word from rfl, h3]
    constructor
    · intro h
      injection h with h'
      obtain ⟨w, hw, hw2⟩ := List.any_eq_true.1 h'
      exact ⟨w, hw, by simpa using hw2⟩
    · rintro ⟨w, hw, hw2⟩
      have : ws.any (fun w => (normKey w).isEmpty) = true :=
        List.any_eq_true.2 ⟨w, hw, by simp [hw2]⟩
      rw [this]

/-- Witness for C6 at concrete inputs. -/
theorem C6_witness :
    (Trie.new.insert [] = some ⟨.mk Trie.new.root.children true⟩ ∧
      (TrieNode.mk Trie.new.root.children true).size = Trie.new.root.size) ∧
    Trie.new.contains [] = some false ∧
    ∃ T, buildTrie [[]] = some T ∧
      (T.contains [] = some true ↔ ∃ w ∈ [([] : List Char)], normKey w = []) :=
  ⟨C6_empty_insert.1 Trie.new [] rfl, C6_empty_insert.2.1, C6_empty_insert.2.2 [[]]⟩

/-- Claim C7, counterexample: for w = "a straight-quote", `insert(w)`
followed by `contains(w.to_lowercase())` returns false, because `contains`
rejects the non-letter character that `insert` elided — so the unconditional
lowercase half of the claim is false. -/
theorem C7_counterexample :
    ∃ t', Trie.new.insert ['a', Char.ofNat 39] = some t' ∧
      t'.contains (toLowercase ['a', Char.ofNat 39]) = some false := by
  refine ⟨_, rfl, ?_⟩
  decide

/-- Claim C7, amended: after `insert(w)`, `contains(w.to_lowercase())`
returns true whenever the lowercased form consists entirely of letters, and
`contains(w.to_uppercase())` returns true whenever the uppercased form
consists entirely of letters. -/
theorem C7_case_invariance (t : Trie) (w : List Char) (hwf : WFb t.root = true)
    {t' : Trie} (hins : t.insert w = some t') :
    ((∀ c ∈ toLowercase w, isAsciiAlphabetic c = true) →
      t'.contains (toLowercase w) = some true) ∧
    ((∀ c ∈ toUppercase w, isAsciiAlphabetic c = true) →
      t'.contains (toUppercase w) = some true) := by
  constructor
  · intro hall
    refine contains_after_insert t w (toLowercase w) hwf hins ?_ ?_
    · rw [toLowercase_idem]
      exact hall
    · rw [normKey_eq, normKey_eq, toLowercase_idem]
  · intro hall
    refine contains_after_insert t w (toUppercase w) hwf hins ?_ ?_
    · intro c hc
      rw [toLowercase] at hc
      simp only [List.mem_map] at hc
      obtain ⟨u, hu, rfl⟩ := hc
      exact lowerChar_alpha (hall u hu)
    · rw [normKey_eq, normKey_eq, toLowercase_toUppercase]

/-- Witness for C7 at a concrete input. -/
theorem C7_witness :
    ((Trie.new.insert ['a', 'b']).getD Trie.new).contains
      (toLowercase ['a', 'b']) = some true ∧
    ((Trie.new.insert ['a', 'b']).getD Trie.new).contains
      (toUppercase ['a', 'b']) = some true :=
  ⟨(C7_case_invariance Trie.new ['a', 'b'] rfl rfl).1 (by decide),
   (C7_case_invariance Trie.new ['a', 'b'] rfl rfl).2 (by decide)⟩

/-- Claim C8: when the node reached by descending the normalized form of
the prefix is marked end-of-word, `words(prefix)` is non-empty and its
first element is the prefix (verbatim). -/
theorem C8_prefix_word_first (t : Trie) (p : List Char) (u : TrieNode)
    (hwf : WFb t.root = true)
    (hdesc : descend t.root (toLowercase p) = some (some u))
    (hend : u.is_end_of_word = true) :
    ∃ L, t.words p = some (p :: L) := by
  rcases u with ⟨cs, e⟩
  rw [show (TrieNode.mk cs e).is_end_of_word = e from rfl] at hend
  subst hend
  refine ⟨collectFrom cs 0 p, ?_⟩
  rw [Trie.words, hdesc]
  rfl

/-- Witness for C8 at a concrete input. -/
theorem C8_witness :
    ∃ L, ((Trie.new.insert ['a', 'p']).getD Trie.new).words ['a', 'p']
      = some (['a', 'p'] :: L) :=
  C8_prefix_word_first ((Trie.new.insert ['a', 'p']).getD Trie.new) ['a', 'p']
    (((descend ((Trie.new.insert ['a', 'p']).getD Trie.new).root
        (toLowercase ['a', 'p'])).getD none).getD TrieNode.new)
    rfl rfl rfl

/-- Claim C9: insertion is monotone and append-only — every `contains`
query answering true keeps answering true after any insert, and the new
trie grows the old one in the structural order (no node removed, no flag
cleared, no child slot replaced). -/
theorem C9_insert_monotone (t : Trie) (w v : List Char) (hwf : WFb t.root = true)
    {t' : Trie} (hins : t.insert w = some t') :
    (t.contains v = some true → t'.contains v = some true) ∧
      NodeLe t.root t'.root := by
  obtain ⟨r, hr1, _, _, _⟩ :=
    insertGo_spec (toLowercase w) t.root hwf (loweredOK_toLowercase w)
  have heq : some (Trie.mk r) = some t' := by
    rw [← hins, Trie.insert, hr1]
    rfl
  injection heq with heq'
  subst heq'
  have hle : NodeLe t.root r :=
    insertGo_le (toLowercase w) t.root r hwf (loweredOK_toLowercase w) hr1
  exact ⟨fun h => containsGo_mono (toLowercase v) t.root r hle h, hle⟩

/-- Witness for C9 at a concrete input. -/
theorem C9_witness :
    (Trie.new.contains ['b'] = some true →
      ((Trie.new.insert ['a']).getD Trie.new).contains ['b'] = some true) ∧
    NodeLe Trie.new.root ((Trie.new.insert ['a']).getD Trie.new).root :=
  C9_insert_monotone Trie.new ['a'] ['b'] rfl rfl

/-- Claim C10: no operation panics on any input over a well-formed trie —
the characters that reach the children indexing are lowercase letters, so
the index is in bounds — and insertion preserves well-formedness. -/
theorem C10_no_panic (t : Trie) (w : List Char) (hwf : WFb t.root = true) :
    (t.insert w).isSome = true ∧ (t.contains w).isSome = true ∧
      (t.words w).isSome = true ∧
      ∀ t', t.insert w = some t' → WFb t'.root = true := by
  obtain ⟨r, hr1, hr2, _, _⟩ :=
    insertGo_spec (toLowercase w) t.root hwf (loweredOK_toLowercase w)
  refine ⟨?_, ?_, ?_, ?_⟩
  · rw [Trie.insert, hr1]
    rfl
  · obtain ⟨b, hb⟩ := containsGo_total (toLowercase w) t.root hwf (loweredOK_toLowercase w)
    rw [Trie.contains, hb]
    rfl
  · rcases descend_spec (toLowercase w) t.root hwf (loweredOK_toLowercase w)
      with ⟨u, h1, _, _⟩ | ⟨h1, _⟩
    · rw [Trie.words, h1]
      rfl
    · rw [Trie.words, h1]
      rfl
  · intro t' hins
    have heq : some (Trie.mk r) = some t' := by
      rw [← hins, Trie.insert, hr1]
      rfl
    injection heq with heq'
    subst heq'
    exact hr2

/-- Witness for C10 at a concrete input. -/
theorem C10_witness :
    (Trie.new.insert ['a']).isSome = true ∧ (Trie.new.contains ['a']).isSome = true ∧
      (Trie.new.words ['a']).isSome = true ∧
      ∀ t', Trie.new.insert ['a'] = some t' → WFb t'.root = true :=
  C10_no_panic Trie.new ['a'] rfl
